import Mathlib

/-!
Shallow embedding of the `ring_buffer` module (src/src/lib.rs): a fixed-capacity
FIFO ring buffer backed by `Vec<Option<T>>` with indices `start`/`end` advanced
by `(i + 1) % capacity`, plus its borrowing and consuming iterators.

Rust panics (zero-capacity push, out-of-bounds `Vec` indexing, `%` by zero,
`Option::unwrap` on `None`) are modelled by returning `none` at the outer
`Option` layer of each operation.
-/

/-- The `RingBuffer<T>` struct: `data: Vec<Option<T>>`, `capacity`, `size`,
`start`, `end` (named `end_` here since `end` is a Lean keyword). -/
structure RingBuffer (T : Type) where
  data : List (Option T)
  capacity : Nat
  size : Nat
  start : Nat
  end_ : Nat
  deriving Repr, DecidableEq

namespace RingBuffer

variable {T : Type}

/-- `RingBuffer::with_capacity`: empty logical content (`Vec::with_capacity`
only reserves), `size = 0`, `start = 0`, `end = 0`. -/
def with_capacity (T : Type) (capacity : Nat) : RingBuffer T :=
  { data := [], capacity := capacity, size := 0, start := 0, end_ := 0 }

/-- `RingBuffer::push`. Returns `none` when the Rust code would panic:
`capacity == 0`, or indexing `data[end]` out of bounds. Otherwise follows the
source: bump `size` if below capacity; if the backing vector is still shorter
than `capacity`, append and advance `end`; else overwrite slot `end`, advance
`start` when `end == start`, then advance `end`. -/
def push (element : T) (b : RingBuffer T) : Option (RingBuffer T) :=
  if b.capacity = 0 then
    none
  else
    let size' := if b.size < b.capacity then b.size + 1 else b.size
    if b.data.length < b.capacity then
      some { b with data := b.data ++ [some element], size := size',
                    end_ := (b.end_ + 1) % b.capacity }
    else if b.end_ < b.data.length then
      some { b with data := b.data.set b.end_ (some element), size := size',
                    start := if b.end_ = b.start then (b.start + 1) % b.capacity else b.start,
                    end_ := (b.end_ + 1) % b.capacity }
    else
      none

/-- `RingBuffer::pop`. The outer `Option` is the panic layer (`%` by zero or
out-of-bounds indexing); the inner `Option T` is the value returned by the Rust
function (`data[position].take()` returns whatever the slot held, which is
`None` exactly when the slot was empty). -/
def pop (b : RingBuffer T) : Option (Option T × RingBuffer T) :=
  if b.size = 0 then
    some (none, b)
  else if b.capacity = 0 then
    none
  else
    match b.data[b.start]? with
    | none => none
    | some v =>
        some (v, { b with size := b.size - 1, start := (b.start + 1) % b.capacity,
                          data := b.data.set b.start none })

/-- `pushList l b`: push the elements of `l` in order (left to right). -/
def pushList : List T → RingBuffer T → Option (RingBuffer T)
  | [], b => some b
  | x :: xs, b => (push x b).bind (pushList xs)

/-- `popN n b`: call `pop` `n` times, collecting the `n` returned
`Option<T>` values. `none` if some call panics. -/
def popN : Nat → RingBuffer T → Option (List (Option T) × RingBuffer T)
  | 0, b => some ([], b)
  | n + 1, b => (pop b).bind fun p => (popN n p.2).map fun r => (p.1 :: r.1, r.2)

end RingBuffer

/-- The borrowing iterator `RingBufferIterator`: a snapshot of the ring plus a
remaining `size` and a cursor `position`. -/
structure RingBufferIterator (T : Type) where
  ring : RingBuffer T
  size : Nat
  position : Nat
  deriving Repr, DecidableEq

namespace RingBufferIterator

variable {T : Type}

/-- `IntoIterator for &RingBuffer`: iterator seeded with the buffer's current
`size` and `start`. -/
def intoIter (b : RingBuffer T) : RingBufferIterator T :=
  { ring := b, size := b.size, position := b.start }

/-- `RingBufferIterator::next`. Outer `Option` is the panic layer (indexing out
of bounds, `unwrap` of an empty slot, `%` by zero); the inner `Option` is the
iterator protocol (`none` = iteration finished). -/
def iterNext (it : RingBufferIterator T) : Option (Option (T × RingBufferIterator T)) :=
  if it.size = 0 then
    some none
  else
    match it.ring.data[it.position]? with
    | none => none
    | some none => none
    | some (some t) =>
        if it.ring.capacity = 0 then
          none
        else
          some (some (t, { it with size := it.size - 1,
                                   position := (it.position + 1) % it.ring.capacity }))

/-- Run the borrowing iterator to completion, fuelled (the fuel only needs to
be at least the iterator's `size`, which strictly decreases at every yield).
`none` if a step panics or the fuel runs out before the iterator finishes. -/
def iterRun : Nat → RingBufferIterator T → Option (List T)
  | 0, it =>
      match iterNext it with
      | some none => some []
      | _ => none
  | fuel + 1, it =>
      match iterNext it with
      | none => none
      | some none => some []
      | some (some (t, it')) => (iterRun fuel it').map (t :: ·)

end RingBufferIterator

namespace RingBuffer

variable {T : Type}

/-- Collect a full borrowing iteration over `b` (`(&b).into_iter().collect()`):
`some l` when it terminates yielding `l`, `none` when some step panics. -/
def iterate (b : RingBuffer T) : Option (List T) :=
  RingBufferIterator.iterRun b.size (RingBufferIterator.intoIter b)

/-- `ConsumingRingBufferIterator`: each `next` is `self.ring.pop()`, and the
iteration ends exactly when `pop` returns `None`. Fuelled run collecting the
yielded elements and the final state of the consumed ring; `none` on panic or
fuel exhaustion. -/
def consumeRun : Nat → RingBuffer T → Option (List T × RingBuffer T)
  | 0, b =>
      match pop b with
      | some (none, b') => some ([], b')
      | _ => none
  | fuel + 1, b =>
      match pop b with
      | none => none
      | some (none, b') => some ([], b')
      | some (some t, b') => (consumeRun fuel b').map fun r => (t :: r.1, r.2)

/-- Collect a full consuming iteration (`b.into_iter().collect()`), together
with the drained buffer the consuming iterator holds when it finishes. -/
def consume (b : RingBuffer T) : Option (List T × RingBuffer T) :=
  consumeRun b.size b

end RingBuffer

namespace RingBuffer

variable {T : Type}

/-- States reachable from `with_capacity` by any sequence of `push` and `pop`
calls that do not panic. -/
inductive Reachable : RingBuffer T → Prop
  | init (c : Nat) : Reachable (with_capacity T c)
  | push_step {b b' : RingBuffer T} {e : T} :
      Reachable b → push e b = some b' → Reachable b'
  | pop_step {b b' : RingBuffer T} {r : Option T} :
      Reachable b → pop b = some (r, b') → Reachable b'

/-- Safety invariant maintained by every reachable state: the backing vector
never exceeds `capacity`, `size` never exceeds `capacity`, `end` stays below a
positive `capacity`, and a zero-capacity buffer stays in its initial state. -/
structure SInv (b : RingBuffer T) : Prop where
  hlen : b.data.length ≤ b.capacity
  hsize : b.size ≤ b.capacity
  hend : 0 < b.capacity → b.end_ < b.capacity
  hzero : b.capacity = 0 → b.size = 0 ∧ b.data = [] ∧ b.start = 0 ∧ b.end_ = 0

theorem sinv_with_capacity (c : Nat) : SInv (with_capacity T c) := by
  constructor <;> simp [with_capacity]

theorem sinv_push {b b' : RingBuffer T} {e : T}
    (h : SInv b) (hp : push e b = some b') : SInv b' := by
  unfold push at hp
  by_cases hc : b.capacity = 0
  · simp [hc] at hp
  · simp only [hc, if_false] at hp
    by_cases hfill : b.data.length < b.capacity
    · simp only [hfill, if_true, Option.some.injEq] at hp
      subst hp
      refine ⟨?_, ?_, ?_, ?_⟩
      · simpa using hfill
      · simp only
        split
        · omega
        · exact h.hsize
      · intro hcpos
        exact Nat.mod_lt _ hcpos
      · intro h0; exact absurd h0 hc
    · simp only [hfill, if_false] at hp
      by_cases hend : b.end_ < b.data.length
      · simp only [hend, if_true, Option.some.injEq] at hp
        subst hp
        refine ⟨?_, ?_, ?_, ?_⟩
        · simpa using h.hlen
        · simp only
          split
          · omega
          · exact h.hsize
        · intro hcpos
          exact Nat.mod_lt _ hcpos
        · intro h0; exact absurd h0 hc
      · simp [hend] at hp

theorem sinv_pop {b b' : RingBuffer T} {r : Option T}
    (h : SInv b) (hp : pop b = some (r, b')) : SInv b' := by
  unfold pop at hp
  by_cases hs : b.size = 0
  · simp only [hs, if_true, Option.some.injEq, Prod.mk.injEq] at hp
    exact hp.2 ▸ h
  · simp only [hs, if_false] at hp
    by_cases hc : b.capacity = 0
    · simp [hc] at hp
    · simp only [hc, if_false] at hp
      rcases hv : b.data[b.start]? with _ | v
      · rw [hv] at hp; exact absurd hp (by simp)
      · rw [hv] at hp
        simp only [Option.some.injEq, Prod.mk.injEq] at hp
        rcases hp with ⟨-, hb'⟩
        subst hb'
        refine ⟨?_, ?_, ?_, ?_⟩
        · simpa using h.hlen
        · exact le_trans (Nat.sub_le _ _) h.hsize
        · intro hcpos; exact h.hend hcpos
        · intro h0; exact absurd h0 hc

theorem reachable_sinv {b : RingBuffer T} (h : Reachable b) : SInv b := by
  induction h with
  | init c => exact sinv_with_capacity c
  | push_step _ hp ih => exact sinv_push ih hp
  | pop_step _ hp ih => exact sinv_pop ih hp

/-- A zero-capacity reachable buffer is exactly the initial state. -/
theorem reachable_zero_cap {b : RingBuffer T} (h : Reachable b)
    (hc : b.capacity = 0) : b = with_capacity T 0 := by
  obtain ⟨hsz, hdata, hst, hen⟩ := (reachable_sinv h).hzero hc
  cases b
  simp_all [with_capacity]

end RingBuffer

namespace RingBuffer

variable {T : Type}

/-- Arithmetic helper: stepping a cursor below `cap` by `m < cap` positions
(mod `cap`) never returns to the cursor unless `m = 0`. -/
theorem add_mod_ne_self {cap start m : Nat} (hs : start < cap) (h0 : 0 < m)
    (hm : m < cap) : (start + m) % cap ≠ start := by
  rcases Nat.lt_or_ge (start + m) cap with h | h
  · rw [Nat.mod_eq_of_lt h]; omega
  · have h2 : start + m - cap < cap := by omega
    rw [Nat.mod_eq_sub_mod h, Nat.mod_eq_of_lt h2]
    omega

/-- Arithmetic helper: advancing the cursor once and then `k` more positions
is the same as advancing `k + 1` positions. -/
theorem cursor_step (cap a k : Nat) :
    ((a + 1) % cap + k) % cap = (a + (k + 1)) % cap := by
  rw [Nat.mod_add_mod]
  congr 1
  omega

/-- Functional invariant tying a buffer to the abstract FIFO queue `q` it
represents (oldest first). It holds for every state reachable without ever
hitting the spurious-eviction case of `push` (`size == 0` with fully grown
storage); `push` breaks it there. Either the backing vector is still growing
(then `end` sits at its length and the occupied run `start..start+size` is not
wrapped), or it has reached `capacity` (then `end = (start + size) % capacity`).
Slot `((start + k) % capacity)` holds the `k`-th element of `q`. -/
structure Inv (b : RingBuffer T) (q : List T) : Prop where
  hcap : 0 < b.capacity
  hlen : b.data.length ≤ b.capacity
  hsize : b.size ≤ b.capacity
  hq : q.length = b.size
  hphase :
    (b.data.length < b.capacity ∧ b.end_ = b.data.length ∧
      b.start + b.size = b.data.length) ∨
    (b.data.length = b.capacity ∧ b.start < b.capacity ∧
      b.end_ = (b.start + b.size) % b.capacity)
  hocc : ∀ k, k < q.length → b.data[(b.start + k) % b.capacity]? = some q[k]?

theorem Inv.start_lt {b : RingBuffer T} {q : List T} (h : Inv b q) :
    b.start < b.capacity := by
  rcases h.hphase with ⟨hlt, -, hsum⟩ | ⟨-, hstlt, -⟩
  · omega
  · exact hstlt

theorem Inv.start_lt_len {b : RingBuffer T} {q : List T} (h : Inv b q)
    (hs : 0 < b.size) : b.start < b.data.length := by
  rcases h.hphase with ⟨-, -, hsum⟩ | ⟨hleneq, hstlt, -⟩
  · omega
  · omega

/-- The initial state satisfies the invariant with the empty queue. -/
theorem inv_with_capacity {c : Nat} (hc : 0 < c) :
    Inv (with_capacity T c) [] := by
  refine ⟨hc, ?_, ?_, ?_, ?_, ?_⟩ <;> simp [with_capacity]
  omega

/-- `pop` on an invariant-satisfying buffer with queue `x :: q` yields `x` and
re-establishes the invariant with queue `q`. -/
theorem inv_pop_cons {b : RingBuffer T} {x : T} {q : List T}
    (hI : Inv b (x :: q)) :
    ∃ b', pop b = some (some x, b') ∧ Inv b' q := by
  have hsz : b.size = q.length + 1 := by have := hI.hq; simpa using this.symm
  have hszpos : b.size ≠ 0 := by omega
  have hstc : b.start < b.capacity := hI.start_lt
  have hstl : b.start < b.data.length := hI.start_lt_len (by omega)
  have hget : b.data[b.start]? = some (some x) := by
    have h0 := hI.hocc 0 (by simp)
    rw [Nat.add_zero, Nat.mod_eq_of_lt hstc] at h0
    simpa using h0
  have hcap0 : ¬ b.capacity = 0 := by omega
  refine ⟨{ b with size := b.size - 1, start := (b.start + 1) % b.capacity, data := b.data.set b.start none }, ?_, ?_⟩
  · unfold pop
    rw [if_neg hszpos, if_neg hcap0, hget]
  · refine ⟨hI.hcap, by simpa using hI.hlen, ?_, ?_, ?_, ?_⟩
    · exact le_trans (Nat.sub_le _ _) hI.hsize
    · simp [hsz]
    · rcases hI.hphase with ⟨hlt, hend, hsum⟩ | ⟨hleneq, hstlt, hendeq⟩
      · left
        have hs1 : b.start + 1 < b.capacity := by omega
        refine ⟨by simpa using hlt, by simpa using hend, ?_⟩
        simp only [List.length_set]
        rw [Nat.mod_eq_of_lt hs1]
        omega
      · right
        refine ⟨by simpa using hleneq, Nat.mod_lt _ hI.hcap, ?_⟩
        simp only
        rw [hendeq, Nat.mod_add_mod]
        congr 1
        omega
    · intro k hk
      simp only
      rw [cursor_step]
      have hsize := hI.hsize
      have hne : (b.start + (k + 1)) % b.capacity ≠ b.start := by
        apply add_mod_ne_self hstc (by omega)
        omega
      rw [List.getElem?_set_ne hne.symm]
      have := hI.hocc (k + 1) (by simpa using (by omega : k + 1 < q.length + 1))
      simpa using this

/-- `pop` on an invariant-satisfying empty buffer returns `None` and leaves the
buffer untouched. -/
theorem inv_pop_nil {b : RingBuffer T} (hI : Inv b []) :
    pop b = some (none, b) := by
  have hsz : b.size = 0 := by simpa using hI.hq.symm
  unfold pop
  rw [if_pos hsz]

end RingBuffer

namespace RingBuffer

variable {T : Type}

/-- `push` during the fill phase (backing vector still shorter than
`capacity`): appends the element, and the invariant queue grows at the back. -/
theorem inv_push_fill {b : RingBuffer T} {q : List T} {e : T} (hI : Inv b q)
    (hfill : b.data.length < b.capacity) :
    push e b = some { b with data := b.data ++ [some e], size := b.size + 1, end_ := (b.end_ + 1) % b.capacity } ∧
    Inv { b with data := b.data ++ [some e], size := b.size + 1, end_ := (b.end_ + 1) % b.capacity } (q ++ [e]) := by
  obtain ⟨-, hend, hsum⟩ : b.data.length < b.capacity ∧ b.end_ = b.data.length ∧
      b.start + b.size = b.data.length := by
    rcases hI.hphase with h | ⟨hleneq, -, -⟩
    · exact ⟨hfill, h.2.1, h.2.2⟩
    · omega
  have hcap0 : ¬ b.capacity = 0 := by omega
  have hslt : b.size < b.capacity := by omega
  constructor
  · unfold push
    rw [if_neg hcap0]
    simp only [hslt, if_true, hfill]
  · refine ⟨hI.hcap, ?_, ?_, ?_, ?_, ?_⟩
    · simp only [List.length_append, List.length_singleton]
      omega
    · simpa using hslt
    · simp [hI.hq]
    · by_cases hlt2 : b.data.length + 1 < b.capacity
      · left
        refine ⟨by simpa using hlt2, ?_, ?_⟩
        · simp only [List.length_append, List.length_singleton]
          rw [hend, Nat.mod_eq_of_lt (by omega)]
        · simp only [List.length_append, List.length_singleton]
          omega
      · right
        refine ⟨by simp only [List.length_append, List.length_singleton]; omega,
            by show b.start < b.capacity; omega, ?_⟩
        simp only
        rw [hend]
        congr 1
        omega
    · intro k hk
      have hkq : k < q.length + 1 := by simpa using hk
      have hqs : q.length = b.size := hI.hq
      have hidx : (b.start + k) % b.capacity = b.start + k :=
        Nat.mod_eq_of_lt (by omega)
      simp only [hidx]
      rcases Nat.lt_or_ge k q.length with hklt | hkge
      · rw [List.getElem?_append, if_pos (by omega)]
        have h1 := hI.hocc k hklt
        rw [hidx] at h1
        rw [h1, List.getElem?_append, if_pos hklt]
      · have hke : k = q.length := by omega
        subst hke
        have hik : b.start + q.length = b.data.length := by omega
        rw [hik, List.getElem?_concat_length, List.getElem?_concat_length]

/-- `push` on a genuinely full buffer (backing vector grown to `capacity` and
`size = capacity`): the slot at `start` (which equals `end`) is overwritten,
`start` advances (the oldest element is evicted), and the invariant queue drops
its head and gains the new element at the back. -/
theorem inv_push_evict {b : RingBuffer T} {q : List T} {e : T} (hI : Inv b q)
    (hfull : b.data.length = b.capacity) (hsz : b.size = b.capacity) :
    push e b = some { b with data := b.data.set b.start (some e), start := (b.start + 1) % b.capacity, end_ := (b.start + 1) % b.capacity } ∧
    Inv { b with data := b.data.set b.start (some e), start := (b.start + 1) % b.capacity, end_ := (b.start + 1) % b.capacity } (q.tail ++ [e]) := by
  obtain ⟨hleneq, hstlt, hendeq⟩ : b.data.length = b.capacity ∧
      b.start < b.capacity ∧ b.end_ = (b.start + b.size) % b.capacity := by
    rcases hI.hphase with ⟨hlt, -, -⟩ | h
    · omega
    · exact h
  have hcap0 : ¬ b.capacity = 0 := by omega
  have hend_start : b.end_ = b.start := by
    rw [hendeq, hsz, Nat.add_mod_right]
    exact Nat.mod_eq_of_lt hstlt
  have hslt : ¬ b.size < b.capacity := by omega
  have hfill' : ¬ b.data.length < b.capacity := by omega
  have hendlt : b.end_ < b.data.length := by omega
  rcases hq : q with _ | ⟨y, qt⟩
  · exfalso
    have := hI.hq
    rw [hq] at this
    simp at this
    omega
  have hqlen : qt.length + 1 = b.size := by
    have := hI.hq
    rw [hq] at this
    simpa using this
  constructor
  · unfold push
    rw [if_neg hcap0]
    simp only [hslt, if_false, hfill']
    rw [if_pos hendlt, hend_start, if_pos rfl]
  · refine ⟨hI.hcap, by simpa using hI.hlen, by simpa using hI.hsize, ?_, ?_, ?_⟩
    · simp only [List.tail_cons, List.length_append, List.length_singleton]
      show qt.length + 1 = b.size
      omega
    · right
      refine ⟨by simpa using hfull, Nat.mod_lt _ hI.hcap, ?_⟩
      simp only
      rw [hsz, Nat.add_mod_right]
      exact (Nat.mod_eq_of_lt (Nat.mod_lt _ hI.hcap)).symm
    · intro k hk
      simp only [List.tail_cons] at hk ⊢
      have hkq : k < qt.length + 1 := by simpa using hk
      simp only [cursor_step]
      rcases Nat.lt_or_ge k qt.length with hklt | hkge
      · have hne : (b.start + (k + 1)) % b.capacity ≠ b.start := by
          apply add_mod_ne_self hstlt (by omega)
          omega
        rw [List.getElem?_set_ne hne.symm]
        have h1 := hI.hocc (k + 1) (by rw [hq]; simpa using (by omega : k + 1 < qt.length + 1))
        rw [hq] at h1
        simp only [List.getElem?_cons_succ] at h1
        rw [h1, List.getElem?_append, if_pos hklt]
      · have hke : k = qt.length := by omega
        subst hke
        have hik : (b.start + (qt.length + 1)) % b.capacity = b.start := by
          rw [hqlen, hsz, Nat.add_mod_right]
          exact Nat.mod_eq_of_lt hstlt
        rw [hik, List.getElem?_set_eq_of_lt _ (by omega), List.getElem?_concat_length]

end RingBuffer

namespace RingBuffer

variable {T : Type}

/-- Running the borrowing iterator for `q.length` steps from a cursor `pos`
whose forward run (mod capacity) spells out `q` yields exactly `q`, with no
panic. -/
theorem iterRun_spec (b : RingBuffer T) (q : List T) (pos : Nat)
    (hcap : 0 < b.capacity) (hpos : pos < b.capacity)
    (hocc : ∀ k, k < q.length → b.data[(pos + k) % b.capacity]? = some q[k]?) :
    RingBufferIterator.iterRun q.length
      { ring := b, size := q.length, position := pos } = some q := by
  induction q generalizing pos with
  | nil => simp [RingBufferIterator.iterRun, RingBufferIterator.iterNext]
  | cons x q ih =>
    have hget : b.data[pos]? = some (some x) := by
      have h0 := hocc 0 (by simp)
      rw [Nat.add_zero, Nat.mod_eq_of_lt hpos] at h0
      simpa using h0
    have hih := ih ((pos + 1) % b.capacity) (Nat.mod_lt _ hcap) (by
      intro k hk
      rw [cursor_step]
      have := hocc (k + 1) (by simpa using (by omega : k + 1 < q.length + 1))
      simpa using this)
    have hnext : RingBufferIterator.iterNext { ring := b, size := q.length + 1, position := pos } = some (some (x, { ring := b, size := q.length, position := (pos + 1) % b.capacity })) := by
      unfold RingBufferIterator.iterNext
      simp [hget, hcap.ne']
    show RingBufferIterator.iterRun (q.length + 1) { ring := b, size := q.length + 1, position := pos } = some (x :: q)
    simp only [RingBufferIterator.iterRun]
    rw [hnext]
    show (RingBufferIterator.iterRun q.length
        { ring := b, size := q.length, position := (pos + 1) % b.capacity }).map (x :: ·) = _
    rw [hih]
    rfl

/-- A buffer satisfying the functional invariant iterates (borrowing) to
exactly its abstract queue, oldest first, without any panic. -/
theorem inv_iterate {b : RingBuffer T} {q : List T} (hI : Inv b q) :
    iterate b = some q := by
  unfold iterate RingBufferIterator.intoIter
  rw [← hI.hq]
  exact iterRun_spec b q b.start hI.hcap hI.start_lt hI.hocc

/-- Popping `q.length + 1` times from a buffer satisfying the invariant yields
the queue elements in FIFO order followed by one `None`, leaving an empty
buffer that still satisfies the invariant. -/
theorem inv_popN {b : RingBuffer T} {q : List T} (hI : Inv b q) :
    ∃ b', popN (q.length + 1) b = some (q.map some ++ [none], b') ∧ Inv b' [] := by
  induction q generalizing b with
  | nil =>
    refine ⟨b, ?_, hI⟩
    show popN 1 b = some ([none], b)
    unfold popN
    rw [inv_pop_nil hI]
    rfl
  | cons x q ih =>
    obtain ⟨b2, hpop, hI2⟩ := inv_pop_cons hI
    obtain ⟨b', hrest, hI'⟩ := ih hI2
    refine ⟨b', ?_, hI'⟩
    show (pop b).bind (fun p => (popN (q.length + 1) p.2).map fun r => (p.1 :: r.1, r.2)) =
      some ((x :: q).map some ++ [none], b')
    rw [hpop]
    show (popN (q.length + 1) b2).map (fun r => (some x :: r.1, r.2)) = _
    rw [hrest]
    rfl

/-- Splitting a push sequence. -/
theorem pushList_append (l1 l2 : List T) (b : RingBuffer T) :
    pushList (l1 ++ l2) b = (pushList l1 b).bind (pushList l2) := by
  induction l1 generalizing b with
  | nil => rfl
  | cons x xs ih =>
    show (push x b).bind (pushList (xs ++ l2)) = ((push x b).bind (pushList xs)).bind (pushList l2)
    cases push x b with
    | none => rfl
    | some b2 => simpa using ih b2

/-- Pushing the list `l` into a fresh buffer of positive capacity `c` succeeds
and leaves a buffer satisfying the functional invariant whose abstract queue is
the last `min (l.length) c` pushed elements (`l.drop (l.length - c)`), with
the backing vector grown to `min l.length c` slots. -/
theorem pushList_inv {c : Nat} (hc : 0 < c) (l : List T) :
    ∃ b, pushList l (with_capacity T c) = some b ∧
      Inv b (l.drop (l.length - c)) ∧ b.capacity = c ∧
      b.data.length = min l.length c := by
  induction l using List.reverseRecOn with
  | nil =>
    exact ⟨with_capacity T c, rfl, by simpa using inv_with_capacity hc,
      rfl, by simp [with_capacity]⟩
  | append_singleton l e ih =>
    obtain ⟨b, hpl, hIb, hbcap, hblen⟩ := ih
    have hsingle : ∀ b0 : RingBuffer T, pushList [e] b0 = push e b0 := by
      intro b0
      show (push e b0).bind (fun b1 => some b1) = push e b0
      cases push e b0 <;> rfl
    rcases Nat.lt_or_ge l.length c with hlc | hlc
    · have hfill : b.data.length < b.capacity := by omega
      have hdrop : l.drop (l.length - c) = l := by
        rw [(by omega : l.length - c = 0), List.drop_zero]
      rw [hdrop] at hIb
      obtain ⟨hpush, hI'⟩ := inv_push_fill (e := e) hIb hfill
      refine ⟨{ b with data := b.data ++ [some e], size := b.size + 1, end_ := (b.end_ + 1) % b.capacity }, ?_, ?_, ?_, ?_⟩
      · rw [pushList_append, hpl]
        show pushList [e] b = _
        rw [hsingle, hpush]
      · have hdrop2 : (l ++ [e]).drop ((l ++ [e]).length - c) = l ++ [e] := by
          rw [(by simp; omega : (l ++ [e]).length - c = 0), List.drop_zero]
        rw [hdrop2]
        exact hI'
      · exact hbcap
      · show (b.data ++ [some e]).length = min (l ++ [e]).length c
        simp only [List.length_append, List.length_singleton]
        omega
    · have hqlen : (l.drop (l.length - c)).length = c := by
        simp only [List.length_drop]
        omega
      have hfull : b.data.length = b.capacity := by omega
      have hsz : b.size = b.capacity := by
        have := hIb.hq
        omega
      obtain ⟨hpush, hI'⟩ := inv_push_evict (e := e) hIb hfull hsz
      refine ⟨{ b with data := b.data.set b.start (some e), start := (b.start + 1) % b.capacity, end_ := (b.start + 1) % b.capacity }, ?_, ?_, ?_, ?_⟩
      · rw [pushList_append, hpl]
        show pushList [e] b = _
        rw [hsingle, hpush]
      · have htail : (l.drop (l.length - c)).tail ++ [e] =
            (l ++ [e]).drop ((l ++ [e]).length - c) := by
          rw [List.tail_drop]
          rw [List.drop_append_of_le_length
            (by simp only [List.length_append, List.length_singleton]; omega)]
          congr 2
          simp only [List.length_append, List.length_singleton]
          omega
        rw [← htail]
        exact hI'
      · exact hbcap
      · show (b.data.set b.start (some e)).length = min (l ++ [e]).length c
        simp only [List.length_set, List.length_append, List.length_singleton]
        omega

end RingBuffer

namespace RingBuffer

variable {T : Type}

/-- Concrete five-operation trace on a capacity-2 buffer: push 1; push 2;
pop; pop; push 3. Every step succeeds (no panic), so the resulting state is
reachable. The final `push` finds the fully grown storage with `end == start`
while the buffer is empty, and spuriously advances `start` past the slot it
just wrote. -/
def bugTrace : Option (RingBuffer Nat) :=
  (push 1 (with_capacity Nat 2)).bind fun b1 =>
  (push 2 b1).bind fun b2 =>
  (pop b2).bind fun p1 =>
  (pop p1.2).bind fun p2 =>
  push 3 p2.2

/-- The state reached by `bugTrace` is reachable in the transition system. -/
theorem bugTrace_reachable : ∃ b, bugTrace = some b ∧ Reachable b := by
  have h0 : Reachable (with_capacity Nat 2) := Reachable.init 2
  have h1 : Reachable (⟨[some 1], 2, 1, 0, 1⟩ : RingBuffer Nat) :=
    Reachable.push_step h0 rfl
  have h2 : Reachable (⟨[some 1, some 2], 2, 2, 0, 0⟩ : RingBuffer Nat) :=
    Reachable.push_step h1 rfl
  have h3 : Reachable (⟨[none, some 2], 2, 1, 1, 0⟩ : RingBuffer Nat) :=
    Reachable.pop_step h2 rfl
  have h4 : Reachable (⟨[none, none], 2, 0, 0, 0⟩ : RingBuffer Nat) :=
    Reachable.pop_step h3 rfl
  have h5 : Reachable (⟨[some 3, none], 2, 1, 1, 1⟩ : RingBuffer Nat) :=
    Reachable.push_step h4 rfl
  exact ⟨⟨[some 3, none], 2, 1, 1, 1⟩, rfl, h5⟩

/-- C1: the claim "pop returns None if and only if size == 0" fails on the
reachable state after capacity 2: push 1; push 2; pop; pop; push 3. There
`size = 1`, yet `pop` returns the Rust value `None` (the slot at `start` is
empty because the last push evicted spuriously). -/
theorem pop_none_with_positive_size_on_bug_trace :
    bugTrace.map (fun b => (b.size, (pop b).map Prod.fst)) = some (1, some none) := rfl

/-- C2: the contiguity invariant fails on the reachable state after
capacity 2: push 1; push 2; pop; pop; push 3. There `end ≠ (start + size) %
capacity` (1 ≠ (1 + 1) % 2 = 0), and `start = end` even though
`0 < size < capacity`. -/
theorem contiguity_invariant_violated_on_bug_trace :
    bugTrace.map (fun b => (b.capacity, b.size, b.start, b.end_,
      decide (b.end_ = (b.start + b.size) % b.capacity),
      decide (b.start = b.end_ → b.size = 0 ∨ b.size = b.capacity))) =
    some (2, 1, 1, 1, false, false) := rfl

/-- C3: the claim "iteration never fails" is false: on the reachable state
after capacity 2: push 1; push 2; pop; pop; push 3, the borrowing iterator has
`size = 1` but its very first `next` hits an empty slot, so the internal
`unwrap` panics (modelled as `none`). -/
theorem borrowing_iteration_panics_on_bug_trace :
    bugTrace.map iterate = some none ∧
    bugTrace.map (fun b => (b.size,
      RingBufferIterator.iterNext (RingBufferIterator.intoIter b))) = some (1, none) :=
  ⟨rfl, rfl⟩

/-- C6: on the reachable state after capacity 2: push 1; push 2; pop; pop;
push 3, consuming iteration yields `[]` (its first `pop` returns `None`) while
borrowing iteration panics instead of yielding the same sequence, and the
buffer left behind by the finished consuming iterator is not fully drained:
`size = 0` but slot 0 still holds element 3. -/
theorem consuming_borrowing_disagree_on_bug_trace :
    bugTrace.map (fun b => ((consume b).map (fun p => (p.1, p.2.size, p.2.data)),
      iterate b)) = some (some ([], 0, [some 3, none]), none) := rfl

/-- C4: pushing any `k ≤ c` elements into a fresh buffer of capacity `c > 0`
and then popping `k + 1` times returns the pushed elements in FIFO order
followed by one final `None`. -/
theorem fifo_roundtrip (c : Nat) (l : List T) (hc : 0 < c)
    (hl : l.length ≤ c) :
    ∃ b b', pushList l (with_capacity T c) = some b ∧
      popN (l.length + 1) b = some (l.map some ++ [none], b') := by
  obtain ⟨b, hpl, hIb, -, -⟩ := pushList_inv hc l
  rw [(by omega : l.length - c = 0), List.drop_zero] at hIb
  obtain ⟨b', hpn, -⟩ := inv_popN hIb
  exact ⟨b, b', hpl, hpn⟩

/-- Witness for C4 at capacity 3 with pushes [10, 20]. -/
theorem fifo_roundtrip_witness :
    ∃ b b', pushList [10, 20] (with_capacity Nat 3) = some b ∧
      popN 3 b = some ([some 10, some 20, none], b') :=
  fifo_roundtrip 3 [10, 20] (by decide) (by decide)

/-- C5: after pushing a list `l` into a fresh buffer of capacity `c > 0`,
borrowing iteration yields exactly the last `min l.length c` pushed elements
(`l.drop (l.length - c)`), oldest to newest. -/
theorem iterate_yields_last_capacity_many (c : Nat) (l : List T) (hc : 0 < c) :
    ∃ b, pushList l (with_capacity T c) = some b ∧
      iterate b = some (l.drop (l.length - c)) ∧
      (l.drop (l.length - c)).length = min l.length c := by
  obtain ⟨b, hpl, hIb, -, -⟩ := pushList_inv hc l
  refine ⟨b, hpl, inv_iterate hIb, ?_⟩
  simp only [List.length_drop]
  omega

/-- Witness for C5 at capacity 2 with pushes [1, 2, 3]: iteration yields the
last two, [2, 3]. -/
theorem iterate_yields_last_capacity_many_witness :
    ∃ b, pushList [1, 2, 3] (with_capacity Nat 2) = some b ∧
      iterate b = some [2, 3] ∧ ([2, 3] : List Nat).length = min 3 2 :=
  iterate_yields_last_capacity_many 2 [1, 2, 3] (by decide)

/-- C7: on every reachable buffer, `push` panics exactly when `capacity = 0`
(in particular it never fails on a positive-capacity buffer, full or not), and
`with_capacity` accepts any capacity, including 0, producing the empty state
`size = start = end = 0`. -/
theorem push_panics_iff_zero_capacity (b : RingBuffer T) (e : T) (c : Nat)
    (h : Reachable b) :
    (push e b = none ↔ b.capacity = 0) ∧
    (with_capacity T c).size = 0 ∧ (with_capacity T c).start = 0 ∧
    (with_capacity T c).end_ = 0 := by
  refine ⟨⟨?_, ?_⟩, rfl, rfl, rfl⟩
  · intro hp
    by_contra hc0
    have hs := reachable_sinv h
    unfold push at hp
    rw [if_neg hc0] at hp
    rcases Nat.lt_or_ge b.data.length b.capacity with hlt | hge
    · simp [hlt] at hp
    · have hlen : b.data.length = b.capacity := le_antisymm hs.hlen hge
      have hend : b.end_ < b.data.length := by
        rw [hlen]
        exact hs.hend (by omega)
      simp [Nat.not_lt.mpr hge, hend] at hp
  · intro hc0
    unfold push
    rw [if_pos hc0]

/-- Witness for C7 at the reachable zero-capacity buffer. -/
theorem push_panics_iff_zero_capacity_witness :
    (push 7 (with_capacity Nat 0) = none ↔ (with_capacity Nat 0).capacity = 0) ∧
    (with_capacity Nat 0).size = 0 ∧ (with_capacity Nat 0).start = 0 ∧
    (with_capacity Nat 0).end_ = 0 :=
  push_panics_iff_zero_capacity (with_capacity Nat 0) 7 0 (Reachable.init 0)

/-- C8: `pop` on any buffer with `size = 0` returns `None` and performs no
mutation whatsoever — the resulting buffer is the very same record, so `size`,
`start`, `end`, `capacity` and every storage slot are unchanged. -/
theorem pop_empty_is_noop (b : RingBuffer T) (h : b.size = 0) :
    pop b = some (none, b) := by
  unfold pop
  rw [if_pos h]

/-- Witness for C8 on a fresh capacity-5 buffer. -/
theorem pop_empty_is_noop_witness :
    pop (with_capacity Nat 5) = some (none, with_capacity Nat 5) :=
  pop_empty_is_noop (with_capacity Nat 5) rfl

/-- C9: every reachable buffer satisfies `0 ≤ size ≤ capacity`: `push` never
raises `size` above `capacity` and `pop` never takes it below 0. -/
theorem size_within_capacity (b : RingBuffer T) (h : Reachable b) :
    0 ≤ b.size ∧ b.size ≤ b.capacity :=
  ⟨Nat.zero_le _, (reachable_sinv h).hsize⟩

/-- Witness for C9 at a fresh capacity-3 buffer. -/
theorem size_within_capacity_witness :
    0 ≤ (with_capacity Nat 3).size ∧
    (with_capacity Nat 3).size ≤ (with_capacity Nat 3).capacity :=
  size_within_capacity (with_capacity Nat 3) (Reachable.init 3)

/-- C10: a reachable zero-capacity buffer is stuck in the initial empty state,
so every operation except `push` is total and never divides by zero: `pop`
returns `None` without reaching the `% capacity` index advance, and both the
borrowing and the consuming iterators immediately finish, yielding nothing. -/
theorem zero_capacity_operations_safe (b : RingBuffer T) (h : Reachable b)
    (hc : b.capacity = 0) :
    pop b = some (none, b) ∧ iterate b = some [] ∧ consume b = some ([], b) := by
  have hb := reachable_zero_cap h hc
  subst hb
  exact ⟨rfl, rfl, rfl⟩

/-- Witness for C10 at the fresh zero-capacity buffer. -/
theorem zero_capacity_operations_safe_witness :
    pop (with_capacity Nat 0) = some (none, with_capacity Nat 0) ∧
    iterate (with_capacity Nat 0) = some [] ∧
    consume (with_capacity Nat 0) = some ([], with_capacity Nat 0) :=
  zero_capacity_operations_safe (with_capacity Nat 0) (Reachable.init 0) rfl

end RingBuffer
